import Mathlib

/-!
Verification development for the `adr` tool (src/main.rs): a batch program
that discovers ADR files, extracts "technology radar" events from their text
with the regex
  `(?P<stack>.*) (?P<cat>.*) (?P<action>default|trial|retire): (?P<tech>.*)`
and folds the events, in ADR-id order, into a nested snapshot
stack → category → {default, trial, retire} sets, printed as markdown tables.

The embedding below models strings as `List Char`.  The Rust `regex` crate
uses leftmost-first (Perl-like) match semantics with greedy `.*` (which never
matches a newline), and `captures_iter` yields non-overlapping matches
resuming after each match's end.  For this particular pattern every capture
is newline-free, and the trailing greedy `tech` group extends every match to
the end of its line, so matching decomposes per line:
  - a line matches iff it splits as `stack ++ " " ++ cat ++ " " ++ kw ++ ": " ++ tech`
    with kw one of the three literals;
  - leftmost-first with greedy groups picks the longest `stack` for which the
    remainder still matches, then the longest `cat`, and `tech` runs to the
    end of the line.
`BTreeMap`s are modelled as `Finmap` (extensionally a key-ordered map),
`BTreeSet` as `Finset`.
-/

namespace Radar

abbrev Str := List Char

/-- The `Action` enum of src/main.rs. -/
inductive Action where
  | Default
  | Trial
  | Retire
  | CelebrateRetirement
deriving DecidableEq, Repr

/-- The `Event` struct of src/main.rs (fields in source order). -/
structure Event where
  action : Action
  tech : Str
  category : Str
  stack : Str
deriving DecidableEq, Repr

/-- The `Adr` struct of src/main.rs: numeric id plus extracted events. -/
structure Adr where
  id : Nat
  events : List Event
deriving DecidableEq, Repr

/-- `impl From<&str> for Action`: the four recognized tags; the wildcard
branch panics ("Unknown action"), modelled as `none`. -/
def actionFrom (tag : Str) : Option Action :=
  if tag = "default".toList then some Action.Default
  else if tag = "trial".toList then some Action.Trial
  else if tag = "retire".toList then some Action.Retire
  else if tag = "celebrate".toList then some Action.CelebrateRetirement
  else none

/-- Strip the first argument from the front of the second, or fail. -/
def dropPre : Str → Str → Option Str
  | [], l => some l
  | _ :: _, [] => none
  | p :: ps, c :: cs => if p = c then dropPre ps cs else none

/-- Parse `kw ++ ": " ++ tech` at the start of a line remainder, trying the
three literals in the alternation order of the regex.  Returns the captured
action string and the greedy tech capture (the whole remainder). -/
def parseKwTail (l : Str) : Option (Str × Str) :=
  match dropPre "default: ".toList l with
  | some t => some ("default".toList, t)
  | none =>
    match dropPre "trial: ".toList l with
    | some t => some ("trial".toList, t)
    | none =>
      match dropPre "retire: ".toList l with
      | some t => some ("retire".toList, t)
      | none => none

/-- A valid split point for the `cat` group: position `j` holds the literal
space between `cat` and the action keyword. -/
def validCatIdx (sub : Str) (j : Nat) : Bool :=
  (sub.get? j == some ' ') && (parseKwTail (sub.drop (j + 1))).isSome

/-- The split point actually chosen for `cat`: the greedy `(?P<cat>.*)` takes
the largest valid split. -/
def catIdx (sub : Str) : Option Nat :=
  ((List.range sub.length).filter (validCatIdx sub)).getLast?

/-- A valid split point for the `stack` group: position `i` holds the literal
space between `stack` and `cat`, and the remainder still matches. -/
def validStackIdx (l : Str) (i : Nat) : Bool :=
  (l.get? i == some ' ') && (catIdx (l.drop (i + 1))).isSome

/-- The split point actually chosen for `stack`: the first greedy `.*` has
highest priority, so the largest valid split wins. -/
def stackIdx (l : Str) : Option Nat :=
  ((List.range l.length).filter (validStackIdx l)).getLast?

/-- The four capture groups of one regex match, as raw strings. -/
structure RawCapture where
  stack : Str
  cat : Str
  action : Str
  tech : Str
deriving DecidableEq, Repr

/-- The unique leftmost-first match of the event regex within one line
(`l` contains no newline), as capture strings. -/
def lineCaptures (l : Str) : Option RawCapture :=
  match stackIdx l with
  | none => none
  | some i =>
    match catIdx (l.drop (i + 1)) with
    | none => none
    | some j =>
      match parseKwTail ((l.drop (i + 1)).drop (j + 1)) with
      | none => none
      | some (a, t) => some ⟨l.take i, (l.drop (i + 1)).take j, a, t⟩

/-- Split a text at newline characters. -/
def splitLines : Str → List Str
  | [] => [[]]
  | c :: cs =>
    match splitLines cs with
    | [] => [[c]]
    | l :: ls => if c = '\n' then [] :: l :: ls else (c :: l) :: ls

/-- All matches of the event regex over a text, in left-to-right order:
since `.` never matches a newline and the trailing greedy `tech` group runs
to the end of its line, `captures_iter` finds at most one match per line. -/
def capturesOf (text : Str) : List RawCapture :=
  (splitLines text).filterMap lineCaptures

/-- Build `Event`s from raw captures via `Action::from`; `none` models the
panic on an unrecognized action tag. -/
def eventsList : List RawCapture → Option (List Event)
  | [] => some []
  | rc :: rest =>
    match actionFrom rc.action with
    | none => none
    | some a =>
      match eventsList rest with
      | none => none
      | some es => some (⟨a, rc.tech, rc.cat, rc.stack⟩ :: es)

/-- `parse_events` of src/main.rs on a document text (file reading aside):
the capture iterator mapped through the `Event` constructor. -/
def eventsOf? (text : Str) : Option (List Event) :=
  eventsList (capturesOf text)

/-- The event sequence extracted from a text (total form; `eventsOf?` is
proved to always succeed). -/
def extract (text : Str) : List Event :=
  (eventsOf? text).getD []

/-- One discovered regular file, by file stem, extension and contents.
Path decomposition (`file_stem` / `extension`) and directory traversal are
the standard library's, out of scope per the spec; a file whose path has no
extension is skipped exactly like one with an extension outside {md, org},
so `ext` is kept as a plain string. -/
structure FsFile where
  stem : Str
  ext : Str
  text : Str
deriving DecidableEq, Repr

/-- Decimal digit value of a character, if any. -/
def digitVal (c : Char) : Option Nat :=
  if '0' ≤ c ∧ c ≤ '9' then some (c.toNat - '0'.toNat) else none

/-- Accumulating decimal parse over the remaining characters. -/
def digitsAux : Str → Nat → Option Nat
  | [], acc => some acc
  | c :: cs, acc =>
    match digitVal c with
    | none => none
    | some d => digitsAux cs (acc * 10 + d)

/-- `usize::from_str`: an optional leading `+` then one or more ASCII
digits, rejecting values above `usize::MAX` (64-bit). -/
def usizeFromStr (s : Str) : Option Nat :=
  let body := match s with
    | '+' :: rest => rest
    | other => other
  match body with
  | [] => none
  | c :: cs =>
    match digitsAux (c :: cs) 0 with
    | none => none
    | some n => if n < 2 ^ 64 then some n else none

/-- The candidate filter of `collect_adrs`: extension in {"md", "org"} and
stem starting with "adr-"; returns the stem remainder to parse as the id. -/
def adrSuffix (f : FsFile) : Option Str :=
  if f.ext = "md".toList ∨ f.ext = "org".toList then
    dropPre "adr-".toList f.stem
  else none

/-- `collect_adrs` before the final sort, over the discovery order of
files: skips non-candidates, aborts (`none`, the `expect` panic) on a
candidate whose id fails to parse, and extracts each candidate's events.
The panic anywhere during the walk aborts the whole run. -/
def collectAdrs : List FsFile → Option (List Adr)
  | [] => some []
  | f :: rest =>
    match adrSuffix f with
    | none => collectAdrs rest
    | some sfx =>
      match usizeFromStr sfx with
      | none => none
      | some id =>
        match eventsOf? f.text with
        | none => none
        | some evs =>
          match collectAdrs rest with
          | none => none
          | some adrs => some (⟨id, evs⟩ :: adrs)

/-- Ordering used by `results.sort_by_key(|adr| adr.id)`. -/
def adrLE (a b : Adr) : Prop := a.id ≤ b.id

instance : DecidableRel adrLE := fun a b => Nat.decLe a.id b.id

instance : IsTotal Adr adrLE := ⟨fun a b => Nat.le_total a.id b.id⟩

instance : IsTrans Adr adrLE := ⟨fun _ _ _ h1 h2 => Nat.le_trans h1 h2⟩

/-- The stable sort by id of `collect_adrs` (Rust's `sort_by_key` is stable;
insertion sort with `≤` is the same stable sort). -/
def sortAdrs (adrs : List Adr) : List Adr :=
  List.insertionSort adrLE adrs

/-- The `TechCategory` struct: three `BTreeSet<String>`s. -/
structure TechCategory where
  default : Finset Str
  trial : Finset Str
  retire : Finset Str
deriving DecidableEq

/-- `TechCategory::default()`: three empty sets. -/
def emptyTC : TechCategory := ⟨∅, ∅, ∅⟩

/-- The `Stack` newtype: `BTreeMap<String, TechCategory>`. -/
abbrev Stack := Finmap (fun _ : Str => TechCategory)

/-- The `Stacks` newtype: `BTreeMap<String, Stack>`. -/
abbrev Stacks := Finmap (fun _ : Str => Stack)

/-- The per-event update of a `TechCategory` in `main`'s loop: remove the
tech from all three sets, then insert it per the action (the
`CelebrateRetirement` arm removes from `retire` once more). -/
def stepCat (tc : TechCategory) (e : Event) : TechCategory :=
  let d := tc.default.erase e.tech
  let tr := tc.trial.erase e.tech
  let r := tc.retire.erase e.tech
  match e.action with
  | Action.Default => ⟨insert e.tech d, tr, r⟩
  | Action.Trial => ⟨d, insert e.tech tr, r⟩
  | Action.Retire => ⟨d, tr, insert e.tech r⟩
  | Action.CelebrateRetirement => ⟨d, tr, r.erase e.tech⟩

/-- One iteration of `main`'s aggregation loop: `entry(..).or_default()` on
both map levels, then the set updates, written as explicit
lookup-with-default followed by insertion. -/
def applyEvent (st : Stacks) (e : Event) : Stacks :=
  let stk : Stack := (st.lookup e.stack).getD ∅
  let tc : TechCategory := (stk.lookup e.category).getD emptyTC
  st.insert e.stack (stk.insert e.category (stepCat tc e))

/-- The aggregation fold of `main` over an event list. -/
def aggregate (st : Stacks) (es : List Event) : Stacks :=
  es.foldl applyEvent st

/-- The flattened event stream: ADRs in order, each ADR's events in
extraction order. -/
def flattenEvents : List Adr → List Event
  | [] => []
  | a :: rest => a.events ++ flattenEvents rest

/-- The whole program, output modelled as the final snapshot (the rendering
of `Display for Stacks` is a function of it); `none` is an aborted run
(panic before anything is printed). -/
def runProgram (files : List FsFile) : Option Stacks :=
  match collectAdrs files with
  | none => none
  | some adrs => some (aggregate ∅ (flattenEvents (sortAdrs adrs)))

/-- The `TechCategory` recorded at a (stack, category) pair, if present. -/
def lookupTC (st : Stacks) (s c : Str) : Option TechCategory :=
  (st.lookup s).bind (fun stk => stk.lookup c)

/-- The default set displayed at a (stack, category) pair (empty if the
pair has no entry). -/
def dSet (st : Stacks) (s c : Str) : Finset Str :=
  ((lookupTC st s c).map TechCategory.default).getD ∅

/-- The trial set displayed at a (stack, category) pair. -/
def tSet (st : Stacks) (s c : Str) : Finset Str :=
  ((lookupTC st s c).map TechCategory.trial).getD ∅

/-- The retire set displayed at a (stack, category) pair. -/
def rSet (st : Stacks) (s c : Str) : Finset Str :=
  ((lookupTC st s c).map TechCategory.retire).getD ∅

/-- How many of the three status sets at (s, c) contain tech t. -/
def statusCount (st : Stacks) (s c t : Str) : Nat :=
  (if t ∈ dSet st s c then 1 else 0) +
    (if t ∈ tSet st s c then 1 else 0) +
    (if t ∈ rSet st s c then 1 else 0)

/-- The action of the last event in replay order mentioning the triple
(stack, category, tech), if any. -/
def lastAction (es : List Event) (s c t : Str) : Option Action :=
  es.foldl
    (fun acc e =>
      if e.stack = s ∧ e.category = c ∧ e.tech = t then some e.action else acc)
    none

/-- Replace the remembered action when the event mentions tech `t`. -/
def updLast (t : Str) (acc : Option Action) (e : Event) : Option Action :=
  if e.tech = t then some e.action else acc

/-- The action of the last event in a list mentioning tech `t`, if any. -/
def lastStatus (evs : List Event) (t : Str) : Option Action :=
  evs.foldl (updLast t) none

/-- Case split on an optional remembered action: a remembered action must
equal the target slot; with none remembered, fall back to the base
proposition. -/
def optSlot (o : Option Action) (B : Prop) (a : Action) : Prop :=
  match o with
  | none => B
  | some x => x = a

/-- The events of a list touching the (stack, category) pair (s, c). -/
def relEvents (es : List Event) (s c : Str) : List Event :=
  es.filter (fun e => decide (e.stack = s ∧ e.category = c))

/-- First ADR file of the spec's React last-writer-wins example. -/
def reactFile1 : FsFile :=
  ⟨"adr-1".toList, "md".toList, "Web Framework trial: React".toList⟩

/-- Second (later) ADR file of the React example. -/
def reactFile2 : FsFile :=
  ⟨"adr-2".toList, "md".toList, "Web Framework retire: React".toList⟩

/-- The snapshot produced by the React example run. -/
def reactSnap : Stacks :=
  (runProgram [reactFile1, reactFile2]).getD ∅

/-- A concrete event used to instantiate frame lemmas. -/
def ev0 : Event := ⟨Action.Trial, "X".toList, "B".toList, "A".toList⟩

/-- The ADR produced from one discovered file: `none` for non-candidates
and for candidates whose id fails to parse. -/
def goodAdr (f : FsFile) : Option Adr :=
  match adrSuffix f with
  | none => none
  | some sfx =>
    match usizeFromStr sfx with
    | none => none
    | some id => some ⟨id, extract f.text⟩

/-- A candidate file whose id fails to parse (the fatal `expect`). -/
def badFile (f : FsFile) : Bool :=
  match adrSuffix f with
  | none => false
  | some sfx => (usizeFromStr sfx).isNone

/-- Strict id order on ADRs, used to pin down the sorted list. -/
def adrLT (a b : Adr) : Prop := a.id < b.id

instance : IsAntisymm Adr adrLT :=
  ⟨fun _ _ h1 h2 => absurd (Nat.lt_trans h1 h2) (Nat.lt_irrefl _)⟩

/-- Every stack entry of a reachable snapshot holds at least one
category (aggregation only ever inserts a stack together with a
category). -/
def stackNE (st : Stacks) : Prop :=
  ∀ s stk, st.lookup s = some stk → ∃ c tc, stk.lookup c = some tc

/-- First ADR file of the spec's end-to-end Postgres example. -/
def storeFile1 : FsFile :=
  ⟨"adr-1".toList, "md".toList, "Data Store trial: Postgres".toList⟩

/-- Second ADR file of the Postgres example. -/
def storeFile2 : FsFile :=
  ⟨"adr-2".toList, "md".toList, "Data Store default: Postgres".toList⟩

/-- The snapshot produced by the Postgres example run. -/
def storeSnap : Stacks :=
  (runProgram [storeFile1, storeFile2]).getD ∅

/-- A file with ADR id 1 whose single event tries X. -/
def dupFile1 : FsFile := ⟨"adr-1".toList, "md".toList, "A B trial: X".toList⟩

/-- A second file with the same ADR id 1 whose single event retires X. -/
def dupFile2 : FsFile := ⟨"adr-1".toList, "org".toList, "A B retire: X".toList⟩

/-- A file with the distinct ADR id 2 whose single event retires X. -/
def distinctFile2 : FsFile :=
  ⟨"adr-2".toList, "md".toList, "A B retire: X".toList⟩

/-! ### Extraction lemmas -/

/-- Every action string captured by the keyword parser is one of the three
literals of the regex alternation. -/
theorem parseKwTail_action {l a t : Str} (h : parseKwTail l = some (a, t)) :
    a = "default".toList ∨ a = "trial".toList ∨ a = "retire".toList := by
  unfold parseKwTail at h
  split at h
  · exact Or.inl (by cases h; rfl)
  · split at h
    · exact Or.inr (Or.inl (by cases h; rfl))
    · split at h
      · exact Or.inr (Or.inr (by cases h; rfl))
      · cases h

/-- Every action string captured from a line is one of the three literals. -/
theorem lineCaptures_action {l : Str} {rc : RawCapture}
    (h : lineCaptures l = some rc) :
    rc.action = "default".toList ∨ rc.action = "trial".toList ∨
      rc.action = "retire".toList := by
  unfold lineCaptures at h
  split at h
  · cases h
  · split at h
    · cases h
    · split at h
      · cases h
      · cases h
        exact parseKwTail_action (by assumption)

/-- Every action string captured from a text is one of the three literals. -/
theorem capturesOf_action {text : Str} {rc : RawCapture}
    (h : rc ∈ capturesOf text) :
    rc.action = "default".toList ∨ rc.action = "trial".toList ∨
      rc.action = "retire".toList := by
  rcases List.mem_filterMap.mp h with ⟨l, _, hl⟩
  exact lineCaptures_action hl

/-- `Action::from` succeeds when all captured actions are recognized. -/
theorem eventsList_isSome {rcs : List RawCapture}
    (h : ∀ rc ∈ rcs, (actionFrom rc.action).isSome = true) :
    (eventsList rcs).isSome = true := by
  induction rcs with
  | nil => rfl
  | cons rc rest ih =>
    have h1 := h rc (List.mem_cons_self rc rest)
    have h2 : (eventsList rest).isSome = true :=
      ih (fun x hx => h x (List.mem_cons_of_mem rc hx))
    cases ha : actionFrom rc.action with
    | none => rw [ha] at h1; cases h1
    | some a =>
      cases he : eventsList rest with
      | none => rw [he] at h2; cases h2
      | some es => simp [eventsList, ha, he]

/-- The event construction over any text's captures never hits the panic
branch of `Action::from`. -/
theorem eventsOf_isSome (text : Str) : (eventsOf? text).isSome = true := by
  apply eventsList_isSome
  intro rc hrc
  rcases capturesOf_action hrc with h | h | h <;> rw [h] <;> decide

/-- `eventsOf?` always produces the total extraction result. -/
theorem eventsOf_eq_extract (text : Str) :
    eventsOf? text = some (extract text) := by
  cases h : eventsOf? text with
  | none => have := eventsOf_isSome text; rw [h] at this; cases this
  | some es => simp [extract, h]

/-- Claim C9: the "Unknown action" panic branch of `Action::from` is
unreachable via the extractor.  For every input text the event construction
succeeds, and every string captured by the action group is one of the three
literals `default`, `trial`, `retire`, on which `Action::from` returns a
value instead of panicking. -/
theorem c9_action_panic_unreachable :
    ∀ text : Str, (eventsOf? text).isSome = true ∧
      ∀ rc, rc ∈ capturesOf text →
        (rc.action = "default".toList ∨ rc.action = "trial".toList ∨
          rc.action = "retire".toList) ∧
        (actionFrom rc.action).isSome = true := by
  intro text
  refine ⟨eventsOf_isSome text, fun rc hrc => ⟨capturesOf_action hrc, ?_⟩⟩
  rcases capturesOf_action hrc with h | h | h <;> rw [h] <;> decide

/-- Claim C9 witness: the theorem applied to a concrete line whose single
capture has action string `default`. -/
theorem c9_witness :
    ((⟨"A".toList, "B".toList, "default".toList, "C".toList⟩ :
        RawCapture).action = "default".toList ∨
      (⟨"A".toList, "B".toList, "default".toList, "C".toList⟩ :
        RawCapture).action = "trial".toList ∨
      (⟨"A".toList, "B".toList, "default".toList, "C".toList⟩ :
        RawCapture).action = "retire".toList) ∧
    (actionFrom (⟨"A".toList, "B".toList, "default".toList, "C".toList⟩ :
        RawCapture).action).isSome = true :=
  (c9_action_panic_unreachable "A B default: C".toList).2
    ⟨"A".toList, "B".toList, "default".toList, "C".toList⟩ (by decide)

/-- Events built from recognized, non-`celebrate` captures are never
`CelebrateRetirement`. -/
theorem eventsList_no_celebrate {rcs : List RawCapture} {es : List Event}
    (h : eventsList rcs = some es)
    (hk : ∀ rc ∈ rcs, rc.action = "default".toList ∨
      rc.action = "trial".toList ∨ rc.action = "retire".toList) :
    ∀ e ∈ es, e.action ≠ Action.CelebrateRetirement := by
  induction rcs generalizing es with
  | nil => cases h; intro e he; cases he
  | cons rc rest ih =>
    have hk1 := hk rc (List.mem_cons_self rc rest)
    cases ha : actionFrom rc.action with
    | none => simp [eventsList, ha] at h
    | some a =>
      cases he' : eventsList rest with
      | none => simp [eventsList, ha, he'] at h
      | some es' =>
        simp only [eventsList, ha, he'] at h
        cases h
        intro e he
        rcases List.mem_cons.mp he with rfl | hmem
        · show a ≠ Action.CelebrateRetirement
          rcases hk1 with hr | hr | hr <;> rw [hr] at ha <;>
            simp [actionFrom] at ha <;> rw [← ha] <;> decide
        · exact ih he' (fun x hx => hk x (List.mem_cons_of_mem rc hx)) e hmem

/-- Claim C6: extraction never produces a `CelebrateRetirement` event: the
alternation only captures `default`, `trial`, `retire`, none of which maps
to that variant. -/
theorem c6_no_celebrate_events :
    ∀ text : Str,
      (extract text).filter
        (fun e => decide (e.action = Action.CelebrateRetirement)) = [] := by
  intro text
  rw [List.filter_eq_nil_iff]
  intro e he
  have h := eventsList_no_celebrate (eventsOf_eq_extract text)
    (fun rc hrc => capturesOf_action hrc) e he
  simpa using h

/-- A newline-free text is a single line. -/
theorem splitLines_no_newline {l : Str} (h : '\n' ∉ l) :
    splitLines l = [l] := by
  induction l with
  | nil => rfl
  | cons c cs ih =>
    have h1 : c ≠ '\n' := fun hc => h (hc ▸ List.mem_cons_self c cs)
    have h2 : '\n' ∉ cs := fun hc => h (List.mem_cons_of_mem c hc)
    rw [splitLines, ih h2]
    simp [h1]

/-- Claim C3 counterexample: the single line
`"S C default: T S C trial: U"` contains two occurrences of the pattern
(`"S C default: T"` and `"S C trial: U"`) but extraction yields exactly one
event, not two: the greedy leading group swallows the first occurrence into
the stack capture of the single match, whose tech capture runs to the end of
the line. -/
theorem c3_counterexample :
    extract "S C default: T S C trial: U".toList =
      [⟨Action.Trial, "U".toList, "C".toList, "S C default: T S".toList⟩] ∧
    (extract "S C default: T S C trial: U".toList).length ≠ 2 :=
  ⟨by decide, by decide⟩

/-- Claim C3 (amended): extraction finds non-overlapping matches
left-to-right, but at most one per line — the trailing greedy tech capture
extends every match to the end of its line — so a single line containing two
occurrences of the pattern yields one event, the second occurrence being
absorbed into the stack and tech captures of the first. -/
theorem c3_at_most_one_event_per_line :
    (∀ l : Str, '\n' ∉ l → (extract l).length ≤ 1) ∧
    extract "S C default: T S C trial: U".toList =
      [⟨Action.Trial, "U".toList, "C".toList, "S C default: T S".toList⟩] := by
  refine ⟨fun l hl => ?_, by decide⟩
  have hc : capturesOf l = (Option.toList (lineCaptures l)) := by
    rw [capturesOf, splitLines_no_newline hl]
    cases h : lineCaptures l <;> simp [List.filterMap, h]
  cases h : lineCaptures l with
  | none =>
    rw [h] at hc
    simp only [extract, eventsOf?, hc, Option.toList]
    simp [eventsList]
  | some rc =>
    rw [h] at hc
    simp only [extract, eventsOf?, hc, Option.toList]
    cases ha : actionFrom rc.action with
    | none => simp [eventsList, ha]
    | some a => simp [eventsList, ha]

/-- Claim C3 witness: the amended bound evaluated on a concrete
newline-free line. -/
theorem c3_witness :
    (extract "A B default: C".toList).length ≤ 1 :=
  c3_at_most_one_event_per_line.1 "A B default: C".toList (by decide)

/-! ### Aggregation: per-technology membership -/

/-- After one step for an event mentioning `t`, membership of `t` in the
three sets reflects exactly the event's action. -/
theorem stepCat_mem_same {e : Event} {t : Str} (c0 : TechCategory)
    (h : e.tech = t) :
    (t ∈ (stepCat c0 e).default ↔ e.action = Action.Default) ∧
    (t ∈ (stepCat c0 e).trial ↔ e.action = Action.Trial) ∧
    (t ∈ (stepCat c0 e).retire ↔ e.action = Action.Retire) := by
  subst h
  cases ha : e.action <;> simp [stepCat, ha]

/-- One step for an event not mentioning `t` leaves `t`'s memberships in
all three sets unchanged. -/
theorem stepCat_mem_other {e : Event} {t : Str} (c0 : TechCategory)
    (h : e.tech ≠ t) :
    (t ∈ (stepCat c0 e).default ↔ t ∈ c0.default) ∧
    (t ∈ (stepCat c0 e).trial ↔ t ∈ c0.trial) ∧
    (t ∈ (stepCat c0 e).retire ↔ t ∈ c0.retire) := by
  have h' : t ≠ e.tech := Ne.symm h
  cases ha : e.action <;> simp [stepCat, ha, h']

/-- Folding `stepCat` over an event list: `t`'s final memberships follow
the last event mentioning `t` (tracked by `updLast`), falling back to the
starting memberships. -/
theorem memFold (t : Str) :
    ∀ (evs : List Event) (c0 : TechCategory) (a0 : Option Action)
      (Bd Bt Br : Prop),
      (t ∈ c0.default ↔ optSlot a0 Bd Action.Default) →
      (t ∈ c0.trial ↔ optSlot a0 Bt Action.Trial) →
      (t ∈ c0.retire ↔ optSlot a0 Br Action.Retire) →
      (t ∈ (evs.foldl stepCat c0).default ↔
          optSlot (evs.foldl (updLast t) a0) Bd Action.Default) ∧
      (t ∈ (evs.foldl stepCat c0).trial ↔
          optSlot (evs.foldl (updLast t) a0) Bt Action.Trial) ∧
      (t ∈ (evs.foldl stepCat c0).retire ↔
          optSlot (evs.foldl (updLast t) a0) Br Action.Retire) := by
  intro evs
  induction evs with
  | nil => exact fun c0 a0 Bd Bt Br hd ht hr => ⟨hd, ht, hr⟩
  | cons e r ih =>
    intro c0 a0 Bd Bt Br hd ht hr
    simp only [List.foldl_cons]
    by_cases h : e.tech = t
    · have hu : updLast t a0 e = some e.action := by simp [updLast, h]
      rcases stepCat_mem_same c0 h with ⟨m1, m2, m3⟩
      exact ih (stepCat c0 e) (updLast t a0 e) Bd Bt Br
        (by rw [hu]; exact m1) (by rw [hu]; exact m2) (by rw [hu]; exact m3)
    · have hu : updLast t a0 e = a0 := by simp [updLast, h]
      rcases stepCat_mem_other c0 h with ⟨m1, m2, m3⟩
      exact ih (stepCat c0 e) (updLast t a0 e) Bd Bt Br
        (by rw [hu]; exact m1.trans hd) (by rw [hu]; exact m2.trans ht)
        (by rw [hu]; exact m3.trans hr)

/-- `memFold` instantiated at the empty remembered action. -/
theorem techTriple (evs : List Event) (c0 : TechCategory) (t : Str) :
    (t ∈ (evs.foldl stepCat c0).default ↔
        optSlot (lastStatus evs t) (t ∈ c0.default) Action.Default) ∧
    (t ∈ (evs.foldl stepCat c0).trial ↔
        optSlot (lastStatus evs t) (t ∈ c0.trial) Action.Trial) ∧
    (t ∈ (evs.foldl stepCat c0).retire ↔
        optSlot (lastStatus evs t) (t ∈ c0.retire) Action.Retire) :=
  memFold t evs c0 none _ _ _ Iff.rfl Iff.rfl Iff.rfl

/-! ### Aggregation: per-(stack, category) decomposition -/

/-- `applyEvent` records at the event's own (stack, category) the stepped
entry (starting from the default-empty one when absent). -/
theorem lookupTC_applyEvent_same (st : Stacks) (e : Event) :
    lookupTC (applyEvent st e) e.stack e.category =
      some (stepCat ((lookupTC st e.stack e.category).getD emptyTC) e) := by
  unfold applyEvent lookupTC
  cases h : st.lookup e.stack <;>
    simp [h, Finmap.lookup_insert, Finmap.lookup_empty]

/-- `applyEvent` leaves every other (stack, category) pair's entry
unchanged. -/
theorem lookupTC_applyEvent_ne (st : Stacks) (e : Event) {s c : Str}
    (h : ¬(s = e.stack ∧ c = e.category)) :
    lookupTC (applyEvent st e) s c = lookupTC st s c := by
  by_cases hs : s = e.stack
  · subst hs
    have hc : c ≠ e.category := fun hc => h ⟨rfl, hc⟩
    unfold applyEvent lookupTC
    cases h2 : st.lookup e.stack <;>
      simp [h2, Finmap.lookup_insert, Finmap.lookup_insert_of_ne _ hc,
        Finmap.lookup_empty]
  · unfold applyEvent lookupTC
    rw [Finmap.lookup_insert_of_ne _ hs]

/-- `applyEvent` leaves every other stack's whole entry unchanged. -/
theorem lookup_applyEvent_stack_ne (st : Stacks) (e : Event) {s : Str}
    (h : s ≠ e.stack) :
    (applyEvent st e).lookup s = st.lookup s := by
  unfold applyEvent
  rw [Finmap.lookup_insert_of_ne _ h]

/-- The per-(stack, category) view of the aggregation fold: the entry at
(s, c) is the `stepCat` fold of the events touching (s, c), and is absent
exactly when the starting entry was absent and no event touches (s, c). -/
theorem lookupTC_foldl (es : List Event) :
    ∀ (st : Stacks) (s c : Str),
      lookupTC (es.foldl applyEvent st) s c =
        (if relEvents es s c = [] then lookupTC st s c
         else some ((relEvents es s c).foldl stepCat
           ((lookupTC st s c).getD emptyTC))) := by
  induction es with
  | nil => intro st s c; simp [relEvents]
  | cons e r ih =>
    intro st s c
    simp only [List.foldl_cons]
    rw [ih]
    by_cases hp : e.stack = s ∧ e.category = c
    · have hrel : relEvents (e :: r) s c = e :: relEvents r s c := by
        simp [relEvents, List.filter_cons, hp]
      have hsc : s = e.stack ∧ c = e.category := ⟨hp.1.symm, hp.2.symm⟩
      have hsame : lookupTC (applyEvent st e) s c =
          some (stepCat ((lookupTC st s c).getD emptyTC) e) := by
        rcases hsc with ⟨h1, h2⟩; subst h1; subst h2
        exact lookupTC_applyEvent_same st e
      rw [hrel, hsame]
      cases hr : relEvents r s c with
      | nil => simp
      | cons x xs => simp
    · have hrel : relEvents (e :: r) s c = relEvents r s c := by
        simp [relEvents, List.filter_cons, hp]
      have hne : lookupTC (applyEvent st e) s c = lookupTC st s c :=
        lookupTC_applyEvent_ne st e (fun hx => hp ⟨hx.1.symm, hx.2.symm⟩)
      rw [hrel, hne]

/-! ### Last-writer-wins -/

/-- The (s, c, t)-filtered last action equals the tech-filtered last action
over the events touching (s, c). -/
theorem lastAction_aux (s c t : Str) :
    ∀ (es : List Event) (acc : Option Action),
      es.foldl
        (fun acc e =>
          if e.stack = s ∧ e.category = c ∧ e.tech = t then some e.action
          else acc) acc =
      (relEvents es s c).foldl (updLast t) acc := by
  intro es
  induction es with
  | nil => intro acc; simp [relEvents]
  | cons e r ih =>
    intro acc
    simp only [List.foldl_cons]
    by_cases hp : e.stack = s ∧ e.category = c
    · have hrel : relEvents (e :: r) s c = e :: relEvents r s c := by
        simp [relEvents, List.filter_cons, hp]
      rw [hrel]
      simp only [List.foldl_cons]
      by_cases ht : e.tech = t
      · rw [if_pos ⟨hp.1, hp.2, ht⟩,
          show updLast t acc e = some e.action from by simp [updLast, ht]]
        exact ih _
      · rw [if_neg (fun hx => ht hx.2.2),
          show updLast t acc e = acc from by simp [updLast, ht]]
        exact ih _
    · have hrel : relEvents (e :: r) s c = relEvents r s c := by
        simp [relEvents, List.filter_cons, hp]
      rw [hrel, if_neg (fun hx => hp ⟨hx.1, hx.2.1⟩)]
      exact ih _

/-- `lastAction` decomposes through the (s, c) filter. -/
theorem lastAction_eq (es : List Event) (s c t : Str) :
    lastAction es s c t = lastStatus (relEvents es s c) t :=
  lastAction_aux s c t es none

/-- With an impossible base, a remembered-action split is an equation. -/
theorem optSlot_iff_of_base_false {o : Option Action} {B : Prop} {a : Action}
    (hB : ¬B) : optSlot o B a ↔ o = some a := by
  cases o <;> simp [optSlot, hB]

/-- The displayed default set through the defaulted entry. -/
theorem dSet_eq (st : Stacks) (s c : Str) :
    dSet st s c = ((lookupTC st s c).getD emptyTC).default := by
  cases h : lookupTC st s c <;> simp [dSet, h, emptyTC]

/-- The displayed trial set through the defaulted entry. -/
theorem tSet_eq (st : Stacks) (s c : Str) :
    tSet st s c = ((lookupTC st s c).getD emptyTC).trial := by
  cases h : lookupTC st s c <;> simp [tSet, h, emptyTC]

/-- The displayed retire set through the defaulted entry. -/
theorem rSet_eq (st : Stacks) (s c : Str) :
    rSet st s c = ((lookupTC st s c).getD emptyTC).retire := by
  cases h : lookupTC st s c <;> simp [rSet, h, emptyTC]

/-- The central last-writer-wins lemma: membership of a technology in each
of the three sets at (s, c) after aggregating an event list from the empty
snapshot is an equation on the last event mentioning (s, c, t). -/
theorem aggregate_lastAction (es : List Event) (s c t : Str) :
    (t ∈ dSet (aggregate ∅ es) s c ↔
      lastAction es s c t = some Action.Default) ∧
    (t ∈ tSet (aggregate ∅ es) s c ↔
      lastAction es s c t = some Action.Trial) ∧
    (t ∈ rSet (aggregate ∅ es) s c ↔
      lastAction es s c t = some Action.Retire) := by
  have hfold := lookupTC_foldl es ∅ s c
  have hempty : lookupTC (∅ : Stacks) s c = none := by
    simp [lookupTC, Finmap.lookup_empty]
  rw [hempty] at hfold
  rw [lastAction_eq es s c t]
  by_cases hrel : relEvents es s c = []
  · rw [if_pos hrel] at hfold
    rw [hrel]
    refine ⟨?_, ?_, ?_⟩ <;>
      simp [dSet_eq, tSet_eq, rSet_eq, aggregate, hfold, lastStatus, emptyTC]
  · rw [if_neg hrel] at hfold
    rcases techTriple (relEvents es s c) emptyTC t with ⟨m1, m2, m3⟩
    have m1' := m1.trans (optSlot_iff_of_base_false (by simp [emptyTC]))
    have m2' := m2.trans (optSlot_iff_of_base_false (by simp [emptyTC]))
    have m3' := m3.trans (optSlot_iff_of_base_false (by simp [emptyTC]))
    have hD : dSet (aggregate ∅ es) s c =
        ((relEvents es s c).foldl stepCat emptyTC).default := by
      rw [dSet_eq]; unfold aggregate; rw [hfold]; rfl
    have hT : tSet (aggregate ∅ es) s c =
        ((relEvents es s c).foldl stepCat emptyTC).trial := by
      rw [tSet_eq]; unfold aggregate; rw [hfold]; rfl
    have hR : rSet (aggregate ∅ es) s c =
        ((relEvents es s c).foldl stepCat emptyTC).retire := by
      rw [rSet_eq]; unfold aggregate; rw [hfold]; rfl
    rw [hD, hT, hR]
    exact ⟨m1', m2', m3'⟩

/-- Claim C2: last-writer-wins.  A technology's final status within a
(stack, category) is determined solely by the last event in replay order
mentioning that (stack, category, tech): a Default/Trial/Retire last event
leaves it in exactly that one set (each membership is equivalent to the
last action being that action, so a CelebrateRetirement or absent last
event leaves it in none).  In particular the React example: trial in
adr-1, retire in adr-2 leaves React only in retire. -/
theorem c2_last_writer_wins :
    (∀ (es : List Event) (s c t : Str),
      (t ∈ dSet (aggregate ∅ es) s c ↔
        lastAction es s c t = some Action.Default) ∧
      (t ∈ tSet (aggregate ∅ es) s c ↔
        lastAction es s c t = some Action.Trial) ∧
      (t ∈ rSet (aggregate ∅ es) s c ↔
        lastAction es s c t = some Action.Retire)) ∧
    ("React".toList ∈ rSet reactSnap "Web".toList "Framework".toList ∧
      "React".toList ∉ dSet reactSnap "Web".toList "Framework".toList ∧
      "React".toList ∉ tSet reactSnap "Web".toList "Framework".toList) :=
  ⟨aggregate_lastAction, by decide, by decide, by decide⟩

/-- Claim C1: after aggregating any prefix of any event sequence — i.e. at
every intermediate point of the fold — every technology name is a member of
at most one of the three sets {default, trial, retire} of any
(stack, category) pair. -/
theorem c1_single_membership :
    ∀ (es : List Event) (i : Nat) (s c t : Str),
      statusCount (aggregate ∅ (es.take i)) s c t ≤ 1 := by
  intro es i s c t
  rcases aggregate_lastAction (es.take i) s c t with ⟨h1, h2, h3⟩
  unfold statusCount
  cases hla : lastAction (es.take i) s c t with
  | none => simp [h1, h2, h3, hla]
  | some a => cases a <;> simp [h1, h2, h3, hla]

/-- Claim C10: frame property of one event application.  Every other
stack's entry is untouched, every other (stack, category) entry is
untouched, and at the event's own (stack, category) the membership of every
technology other than the event's tech is unchanged in all three sets. -/
theorem c10_frame :
    ∀ (st : Stacks) (e : Event),
      (∀ s, s ≠ e.stack → (applyEvent st e).lookup s = st.lookup s) ∧
      (∀ s c, ¬(s = e.stack ∧ c = e.category) →
        lookupTC (applyEvent st e) s c = lookupTC st s c) ∧
      (∀ t, t ≠ e.tech →
        (t ∈ dSet (applyEvent st e) e.stack e.category ↔
          t ∈ dSet st e.stack e.category) ∧
        (t ∈ tSet (applyEvent st e) e.stack e.category ↔
          t ∈ tSet st e.stack e.category) ∧
        (t ∈ rSet (applyEvent st e) e.stack e.category ↔
          t ∈ rSet st e.stack e.category)) := by
  intro st e
  refine ⟨fun s hs => lookup_applyEvent_stack_ne st e hs,
    fun s c h => lookupTC_applyEvent_ne st e h, fun t ht => ?_⟩
  have hsame := lookupTC_applyEvent_same st e
  have hmo := stepCat_mem_other (t := t)
    ((lookupTC st e.stack e.category).getD emptyTC) (Ne.symm ht)
  have hD : dSet (applyEvent st e) e.stack e.category =
      (stepCat ((lookupTC st e.stack e.category).getD emptyTC) e).default := by
    rw [dSet_eq, hsame]; rfl
  have hT : tSet (applyEvent st e) e.stack e.category =
      (stepCat ((lookupTC st e.stack e.category).getD emptyTC) e).trial := by
    rw [tSet_eq, hsame]; rfl
  have hR : rSet (applyEvent st e) e.stack e.category =
      (stepCat ((lookupTC st e.stack e.category).getD emptyTC) e).retire := by
    rw [rSet_eq, hsame]; rfl
  rw [hD, hT, hR, dSet_eq st, tSet_eq st, rSet_eq st]
  exact hmo

/-- Claim C10 witness: the frame property applied at concrete inputs. -/
theorem c10_witness :
    ((applyEvent ∅ ev0).lookup "Z".toList = (∅ : Stacks).lookup "Z".toList) ∧
    (lookupTC (applyEvent ∅ ev0) "A".toList "Q".toList =
      lookupTC (∅ : Stacks) "A".toList "Q".toList) ∧
    (("Y".toList ∈ dSet (applyEvent ∅ ev0) "A".toList "B".toList ↔
        "Y".toList ∈ dSet (∅ : Stacks) "A".toList "B".toList) ∧
      ("Y".toList ∈ tSet (applyEvent ∅ ev0) "A".toList "B".toList ↔
        "Y".toList ∈ tSet (∅ : Stacks) "A".toList "B".toList) ∧
      ("Y".toList ∈ rSet (applyEvent ∅ ev0) "A".toList "B".toList ↔
        "Y".toList ∈ rSet (∅ : Stacks) "A".toList "B".toList)) :=
  ⟨(c10_frame ∅ ev0).1 "Z".toList (by decide),
    (c10_frame ∅ ev0).2.1 "A".toList "Q".toList (by decide),
    (c10_frame ∅ ev0).2.2 "Y".toList (by decide)⟩

/-! ### Idempotence -/

/-- Extensionality for the three-set record. -/
theorem tcEq {a b : TechCategory} (h1 : a.default = b.default)
    (h2 : a.trial = b.trial) (h3 : a.retire = b.retire) : a = b := by
  cases a; cases b; simp_all

/-- Replaying an event list over the category state it already produced
changes nothing. -/
theorem techFold_idem (rel : List Event) (c0 : TechCategory) :
    rel.foldl stepCat (rel.foldl stepCat c0) = rel.foldl stepCat c0 := by
  apply tcEq <;> apply Finset.ext <;> intro t
  · rcases techTriple rel (rel.foldl stepCat c0) t with ⟨m1, _, _⟩
    rcases techTriple rel c0 t with ⟨n1, _, _⟩
    cases ho : lastStatus rel t with
    | none => rw [ho] at m1; exact m1
    | some a => rw [ho] at m1 n1; exact m1.trans n1.symm
  · rcases techTriple rel (rel.foldl stepCat c0) t with ⟨_, m2, _⟩
    rcases techTriple rel c0 t with ⟨_, n2, _⟩
    cases ho : lastStatus rel t with
    | none => rw [ho] at m2; exact m2
    | some a => rw [ho] at m2 n2; exact m2.trans n2.symm
  · rcases techTriple rel (rel.foldl stepCat c0) t with ⟨_, _, m3⟩
    rcases techTriple rel c0 t with ⟨_, _, n3⟩
    cases ho : lastStatus rel t with
    | none => rw [ho] at m3; exact m3
    | some a => rw [ho] at m3 n3; exact m3.trans n3.symm

/-- The empty snapshot has no stack entries at all. -/
theorem stackNE_empty : stackNE ∅ := by
  intro s stk h
  rw [Finmap.lookup_empty] at h
  cases h

/-- One event application preserves nonemptiness of stack entries. -/
theorem stackNE_applyEvent {st : Stacks} (h : stackNE st) (e : Event) :
    stackNE (applyEvent st e) := by
  intro s stk hs
  by_cases hst : s = e.stack
  · subst hst
    unfold applyEvent at hs
    rw [Finmap.lookup_insert] at hs
    cases hs
    exact ⟨e.category, _, Finmap.lookup_insert _⟩
  · rw [lookup_applyEvent_stack_ne st e hst] at hs
    exact h s stk hs

/-- The aggregation fold preserves nonemptiness of stack entries. -/
theorem stackNE_foldl (es : List Event) :
    ∀ st : Stacks, stackNE st → stackNE (es.foldl applyEvent st) := by
  induction es with
  | nil => exact fun st h => h
  | cons e r ih => exact fun st h => ih (applyEvent st e) (stackNE_applyEvent h e)

/-- Snapshots with nonempty stack entries agreeing on every
(stack, category) entry are equal. -/
theorem snapExt {st1 st2 : Stacks} (h1 : stackNE st1) (h2 : stackNE st2)
    (h : ∀ s c, lookupTC st1 s c = lookupTC st2 s c) : st1 = st2 := by
  apply Finmap.ext_lookup
  intro s
  cases e1 : st1.lookup s with
  | none =>
    cases e2 : st2.lookup s with
    | none => rfl
    | some stk2 =>
      rcases h2 s stk2 e2 with ⟨c, tc, hc⟩
      have hx := h s c
      simp only [lookupTC, e1, e2, Option.bind_none, Option.bind_some] at hx
      simp [hc] at hx
  | some stk1 =>
    cases e2 : st2.lookup s with
    | none =>
      rcases h1 s stk1 e1 with ⟨c, tc, hc⟩
      have hx := h s c
      simp only [lookupTC, e1, e2, Option.bind_none, Option.bind_some] at hx
      simp [hc] at hx
    | some stk2 =>
      congr 1
      apply Finmap.ext_lookup
      intro c
      have hx := h s c
      simpa only [lookupTC, e1, e2, Option.bind_some] using hx

/-- Claim C7: aggregation is idempotent with respect to replay: folding an
event list a second time over the snapshot it already produced from the
empty snapshot yields the same snapshot. -/
theorem c7_replay_idempotent :
    ∀ es : List Event, aggregate (aggregate ∅ es) es = aggregate ∅ es := by
  intro es
  have hne1 : stackNE (aggregate ∅ es) := stackNE_foldl es ∅ stackNE_empty
  have hne2 : stackNE (aggregate (aggregate ∅ es) es) :=
    stackNE_foldl es _ hne1
  apply snapExt hne2 hne1
  intro s c
  unfold aggregate
  have h1 := lookupTC_foldl es ∅ s c
  have h2 := lookupTC_foldl es (es.foldl applyEvent ∅) s c
  have hempty : lookupTC (∅ : Stacks) s c = none := by
    simp [lookupTC, Finmap.lookup_empty]
  rw [hempty] at h1
  by_cases hrel : relEvents es s c = []
  · rw [h2, if_pos hrel]
  · rw [h2, if_neg hrel, h1, if_neg hrel]
    congr 1
    exact techFold_idem _ _

/-! ### Loader -/

/-- A candidate file with an unparseable id anywhere in the walk aborts
`collect_adrs` (the `expect` panic). -/
theorem collectAdrs_abort :
    ∀ (files : List FsFile) (f : FsFile) (sfx : Str), f ∈ files →
      adrSuffix f = some sfx → usizeFromStr sfx = none →
      collectAdrs files = none := by
  intro files
  induction files with
  | nil => intro f sfx hmem; cases hmem
  | cons g rest ih =>
    intro f sfx hmem hsfx hbad
    rcases List.mem_cons.mp hmem with rfl | hmem
    · simp [collectAdrs, hsfx, hbad]
    · cases hg : adrSuffix g with
      | none =>
        simp only [collectAdrs, hg]
        exact ih f sfx hmem hsfx hbad
      | some s2 =>
        cases hu : usizeFromStr s2 with
        | none => simp [collectAdrs, hg, hu]
        | some id =>
          cases he : eventsOf? g.text with
          | none => simp [collectAdrs, hg, hu, he]
          | some evs =>
            simp [collectAdrs, hg, hu, he, ih f sfx hmem hsfx hbad]

/-- Claim C8: a discovered candidate file (extension md/org, stem starting
with "adr-") whose stem suffix does not parse as a usize aborts the whole
run: the program produces no snapshot and hence prints nothing (the panic
fires inside `collect_adrs`, before `main` reaches the `println!`). -/
theorem c8_malformed_id_aborts :
    ∀ (files : List FsFile) (f : FsFile) (sfx : Str), f ∈ files →
      adrSuffix f = some sfx → usizeFromStr sfx = none →
      runProgram files = none := by
  intro files f sfx hmem hsfx hbad
  unfold runProgram
  rw [collectAdrs_abort files f sfx hmem hsfx hbad]

/-- Claim C8 witness: the run over the single malformed file `adr-x.md`
aborts. -/
theorem c8_witness : runProgram [⟨"adr-x".toList, "md".toList, []⟩] = none :=
  c8_malformed_id_aborts [⟨"adr-x".toList, "md".toList, []⟩]
    ⟨"adr-x".toList, "md".toList, []⟩ "x".toList (by decide) (by decide)
    (by decide)

/-- `collect_adrs` characterized: it aborts iff some discovered file is a
malformed candidate, and otherwise returns the per-file ADRs in discovery
order. -/
theorem collectAdrs_eq (files : List FsFile) :
    collectAdrs files =
      if files.any badFile then none
      else some (files.filterMap goodAdr) := by
  induction files with
  | nil => rfl
  | cons f rest ih =>
    cases hs : adrSuffix f with
    | none =>
      have hb : badFile f = false := by simp [badFile, hs]
      have hg : goodAdr f = none := by simp [goodAdr, hs]
      simp [collectAdrs, hs, List.any_cons, hb, List.filterMap_cons, hg, ih]
    | some sfx =>
      cases hu : usizeFromStr sfx with
      | none =>
        have hb : badFile f = true := by simp [badFile, hs, hu]
        simp [collectAdrs, hs, hu, List.any_cons, hb]
      | some id =>
        have hb : badFile f = false := by simp [badFile, hs, hu]
        have hg : goodAdr f = some ⟨id, extract f.text⟩ := by
          simp [goodAdr, hs, hu]
        have he : eventsOf? f.text = some (extract f.text) :=
          eventsOf_eq_extract f.text
        by_cases hrest : rest.any badFile
        · simp [collectAdrs, hs, hu, he, ih, List.any_cons, hb, hrest]
        · simp [collectAdrs, hs, hu, he, ih, List.any_cons, hb, hrest,
            List.filterMap_cons, hg]

/-- `any` is invariant under permutation. -/
theorem any_perm {α : Type} {p : α → Bool} {l1 l2 : List α}
    (h : l1.Perm l2) : l1.any p = l2.any p := by
  cases hb : l2.any p with
  | true =>
    rcases List.any_eq_true.mp hb with ⟨x, hx, hpx⟩
    exact List.any_eq_true.mpr ⟨x, h.mem_iff.mpr hx, hpx⟩
  | false =>
    rw [List.any_eq_false] at hb ⊢
    exact fun x hx => hb x (h.mem_iff.mp hx)

/-- Two permuted ADR lists with pairwise-distinct ids have the same sorted
form: the sort result is sorted by strict id order, which pins it down. -/
theorem sortAdrs_eq_of_perm {l1 l2 : List Adr} (h : l1.Perm l2)
    (hnd : (l1.map Adr.id).Nodup) : sortAdrs l1 = sortAdrs l2 := by
  have hp1 : (sortAdrs l1).Perm l1 := List.perm_insertionSort adrLE l1
  have hp2 : (sortAdrs l2).Perm l2 := List.perm_insertionSort adrLE l2
  have hperm : (sortAdrs l1).Perm (sortAdrs l2) := hp1.trans (h.trans hp2.symm)
  have hs1 : List.Sorted adrLE (sortAdrs l1) := List.sorted_insertionSort adrLE l1
  have hs2 : List.Sorted adrLE (sortAdrs l2) := List.sorted_insertionSort adrLE l2
  have hnd1 : ((sortAdrs l1).map Adr.id).Nodup := ((hp1.map Adr.id).nodup_iff).mpr hnd
  have hnd2 : ((sortAdrs l2).map Adr.id).Nodup := by
    have hnd' : (l2.map Adr.id).Nodup := ((h.map Adr.id).nodup_iff).mp hnd
    exact ((hp2.map Adr.id).nodup_iff).mpr hnd'
  have hlt1 : List.Sorted adrLT (sortAdrs l1) := by
    have hne := (List.pairwise_map).mp hnd1
    exact (hs1.and hne).imp fun hx => Nat.lt_of_le_of_ne hx.1 hx.2
  have hlt2 : List.Sorted adrLT (sortAdrs l2) := by
    have hne := (List.pairwise_map).mp hnd2
    exact (hs2.and hne).imp fun hx => Nat.lt_of_le_of_ne hx.1 hx.2
  exact List.eq_of_perm_of_sorted hperm hlt1 hlt2

/-- Claim C5 counterexample: two files with the same ADR id 1 whose events
conflict.  They form the same multiset in either discovery order, but the
stable sort preserves the discovery order between equal ids, so the two
runs produce different snapshots. -/
theorem c5_counterexample :
    [dupFile1, dupFile2].Perm [dupFile2, dupFile1] ∧
    runProgram [dupFile1, dupFile2] ≠ runProgram [dupFile2, dupFile1] := by
  refine ⟨by decide, fun h => ?_⟩
  have hx : "X".toList ∈
      rSet ((runProgram [dupFile1, dupFile2]).getD ∅) "A".toList "B".toList :=
    by decide
  rw [h] at hx
  exact absurd hx (by decide)

/-- Claim C5 (amended): the aggregation output is invariant to the
filesystem enumeration order provided the discovered ADR ids are pairwise
distinct; with duplicate ids the stable sort preserves discovery order
between them, and the output can differ (see the counterexample). -/
theorem c5_enumeration_order :
    ∀ files1 files2 : List FsFile, files1.Perm files2 →
      (((collectAdrs files1).getD []).map Adr.id).Nodup →
      runProgram files1 = runProgram files2 := by
  intro files1 files2 hperm hnd
  unfold runProgram
  rw [collectAdrs_eq files1, collectAdrs_eq files2, any_perm hperm]
  by_cases hany : files2.any badFile
  · rw [if_pos hany, if_pos hany]
  · rw [if_neg hany, if_neg hany]
    have hnd' : ((files1.filterMap goodAdr).map Adr.id).Nodup := by
      rw [collectAdrs_eq files1, any_perm hperm, if_neg hany] at hnd
      simpa using hnd
    show some (aggregate ∅ (flattenEvents (sortAdrs (files1.filterMap goodAdr)))) =
      some (aggregate ∅ (flattenEvents (sortAdrs (files2.filterMap goodAdr))))
    rw [sortAdrs_eq_of_perm (hperm.filterMap goodAdr) hnd']

/-- Claim C5 witness: two discovery orders of the same two files with
distinct ids 1 and 2 produce the same output. -/
theorem c5_witness :
    runProgram [dupFile1, distinctFile2] = runProgram [distinctFile2, dupFile1] :=
  c5_enumeration_order [dupFile1, distinctFile2] [distinctFile2, dupFile1]
    (by decide) (by decide)

/-! ### End to end -/

/-- Stacks never touched by an event list keep their (absent) entry. -/
theorem lookup_foldl_stack_ne (es : List Event) :
    ∀ (st : Stacks) (s : Str), (∀ e ∈ es, e.stack ≠ s) →
      (es.foldl applyEvent st).lookup s = st.lookup s := by
  induction es with
  | nil => intro st s _; rfl
  | cons e r ih =>
    intro st s h
    simp only [List.foldl_cons]
    rw [ih _ s (fun x hx => h x (List.mem_cons_of_mem e hx)),
      lookup_applyEvent_stack_ne st e (Ne.symm (h e (List.mem_cons_self e r)))]

/-- Claim C4 counterexample: on the two Postgres ADR files the run
succeeds, but the snapshot has no stack named "Data Store": the regex
captures stack "Data" and category "Store" from
`"Data Store default: Postgres"`, so the claimed stack name is wrong. -/
theorem c4_counterexample :
    (runProgram [storeFile1, storeFile2]).isSome = true ∧
    storeSnap.lookup "Data Store".toList = none :=
  ⟨by decide, by decide⟩

/-- Claim C4 (amended): on the two Postgres ADR files the aggregated
snapshot has exactly one stack, named "Data", containing exactly one
category row "Store", with Postgres listed only under Default (trial and
retire empty). -/
theorem c4_end_to_end :
    (runProgram [storeFile1, storeFile2]).isSome = true ∧
    lookupTC storeSnap "Data".toList "Store".toList =
      some ⟨{"Postgres".toList}, ∅, ∅⟩ ∧
    (∀ s, s ≠ "Data".toList → storeSnap.lookup s = none) ∧
    (∀ c, c ≠ "Store".toList → lookupTC storeSnap "Data".toList c = none) := by
  have hsnap : storeSnap =
      [(⟨Action.Trial, "Postgres".toList, "Store".toList, "Data".toList⟩ : Event),
        ⟨Action.Default, "Postgres".toList, "Store".toList, "Data".toList⟩].foldl
        applyEvent ∅ := by rfl
  refine ⟨by decide, by decide, ?_, ?_⟩
  · intro s hs
    rw [hsnap, lookup_foldl_stack_ne _ ∅ s ?_, Finmap.lookup_empty]
    intro e he
    rcases List.mem_cons.mp he with rfl | he2
    · exact fun hc => hs hc.symm
    · rcases List.mem_singleton.mp he2 with rfl
      exact fun hc => hs hc.symm
  · intro c hc
    have hrel : relEvents
        [(⟨Action.Trial, "Postgres".toList, "Store".toList, "Data".toList⟩ : Event),
          ⟨Action.Default, "Postgres".toList, "Store".toList, "Data".toList⟩]
        "Data".toList c = [] := by
      apply List.filter_eq_nil_iff.mpr
      intro e he
      rcases List.mem_cons.mp he with rfl | he2
      · simp
        exact fun h => hc h.symm
      · rcases List.mem_singleton.mp he2 with rfl
        simp
        exact fun h => hc h.symm
    rw [hsnap, lookupTC_foldl _ ∅ "Data".toList c, if_pos hrel]
    simp [lookupTC, Finmap.lookup_empty]

/-- Claim C4 witness: the amended theorem's frame parts applied at a
concrete other stack name and other category name. -/
theorem c4_witness :
    storeSnap.lookup "Zzz".toList = none ∧
    lookupTC storeSnap "Data".toList "Zzz".toList = none :=
  ⟨c4_end_to_end.2.2.1 "Zzz".toList (by decide),
    c4_end_to_end.2.2.2 "Zzz".toList (by decide)⟩

end Radar
